import Mathlib

/-
Verification of the linear-operator behaviour documented in
docs/source/tutorials/linops/linear_operators_quickstart.ipynb.

The repository slice contains only the tutorial notebook; the implementation
of probnum.linops (Matrix, LinearOperator, Identity, SumLinearOperator,
ProductLinearOperator, scalar scaling, transpose, todense) and of
probnum.randvars (Normal and operator application to random variables) is not
included.  Those parts are therefore modelled from the specification and from
the call patterns and printed outputs of the notebook.  Scalars are modelled
as rationals: every value appearing in the notebook's examples is an exactly
representable float64, so exact arithmetic agrees with the displayed results.
-/

namespace Linops

/-- Vectors: finite lists of rational scalars. -/
abbrev Vec := List ℚ

/-- Matrices: lists of rows. -/
abbrev Mat := List (List ℚ)

/-- Dot product of two vectors (pairwise products, summed). -/
def dot (r x : Vec) : ℚ := (List.zipWith (fun a b => a * b) r x).sum

/-- Matrix-vector product: dot each row with the vector. -/
def matVec (A : Mat) (x : Vec) : Vec := A.map (fun r => dot r x)

/-- Number of columns of a matrix: the length of its first row. -/
def colsOf (M : Mat) : Nat := (M.headD []).length

/-- Transpose of a matrix. -/
def transposeMat (M : Mat) : Mat :=
  (List.range (colsOf M)).map (fun j => M.map (fun r => r.getD j 0))

/-- Entrywise sum of two matrices. -/
def matAdd (A B : Mat) : Mat := List.zipWith (List.zipWith (fun a b => a + b)) A B

/-- Scalar multiple of a matrix. -/
def scaleMat (c : ℚ) (A : Mat) : Mat := A.map (List.map (fun a => c * a))

/-- Matrix product: entry (i,j) is the dot product of row i of A with
column j of B. -/
def matMul (A B : Mat) : Mat :=
  A.map (fun r => (transposeMat B).map (fun col => dot r col))

/-- The j-th standard basis vector of length n. -/
def unitVec (n j : Nat) : Vec := (List.range n).map (fun i => if i = j then 1 else 0)

/-- The n-by-n identity matrix. -/
def idMat (n : Nat) : Mat := (List.range n).map (fun i => unitVec n i)

/-- `IsMat m n M`: M is a well-formed m-by-n matrix: m rows, each of length n,
and a degenerate zero extent only ever in both dimensions at once (a list of
rows cannot record a positive column count with zero rows, nor vice versa,
matching the non-degenerate arrays the notebook uses). -/
def IsMat (m n : Nat) (M : Mat) : Prop :=
  M.length = m ∧ (∀ r ∈ M, r.length = n) ∧ (m = 0 ↔ n = 0)

instance (m n : Nat) (M : Mat) : Decidable (IsMat m n M) := by
  unfold IsMat; exact inferInstance

/-- Modelled from the spec: the numeric element types ("dtype") tracked by the
missing probnum.linops implementation.  Only float64 appears in the notebook. -/
inductive DType where
  | float64 : DType
  | float32 : DType
deriving DecidableEq

/-- Modelled from the spec: the dtype a composite operator derives from its
constituents (equal dtypes are kept; the default promotion is float64). -/
def promoteDType (a b : DType) : DType := if a = b then a else .float64

/-- Modelled from the spec: the operator graph of the missing probnum.linops
package.  `Matrix` stores an explicit array (a dense NumPy array, or a sparse
SciPy matrix modelled by its entries); `LinearOperator` stores only a declared
shape, a dtype and a matrix-vector-product callable, no entries;
`Identity` is the identity operator; `Sum`, `Product` and `Scaled` are the
lazy composites produced by operator arithmetic, storing references to their
constituents. -/
inductive LinOp where
  | Matrix : Mat → LinOp
  | LinearOperator : Nat → Nat → DType → (Vec → Vec) → LinOp
  | Identity : Nat → LinOp
  | Sum : LinOp → LinOp → LinOp
  | Product : LinOp → LinOp → LinOp
  | Scaled : ℚ → LinOp → LinOp

/-- Modelled from the spec: `LinearOperator.broadcast_matvec` wraps a callable
computing a matrix-vector product so that it also broadcasts over stacked
inputs; on a single vector, the only use exercised here, it is the callable
itself. -/
def broadcast_matvec (mv : Vec → Vec) : Vec → Vec := mv

/-- Modelled from the spec: every operator has a shape (rows, columns);
composites derive theirs from their constituents. -/
def shape : LinOp → Nat × Nat
  | .Matrix A => (A.length, colsOf A)
  | .LinearOperator m n _ _ => (m, n)
  | .Identity n => (n, n)
  | .Sum A _ => shape A
  | .Product A B => ((shape A).1, (shape B).2)
  | .Scaled _ A => shape A

/-- Modelled from the spec: every operator has a numeric element type;
composites derive theirs from their constituents.  The notebook's arrays and
the `Identity` operator are float64. -/
def dtype : LinOp → DType
  | .Matrix _ => .float64
  | .LinearOperator _ _ dt _ => dt
  | .Identity _ => .float64
  | .Sum A B => promoteDType (dtype A) (dtype B)
  | .Product A B => promoteDType (dtype A) (dtype B)
  | .Scaled _ A => dtype A

/-- Modelled from the spec: applying an operator to a vector with `@`.
The vector must be conformable (its length must equal the operator's column
count), otherwise application fails; application of a composite is defined
recursively in terms of its constituents. -/
def applyOp : LinOp → Vec → Option Vec
  | .Matrix A, x => if x.length = colsOf A then some (matVec A x) else none
  | .LinearOperator _ n _ mv, x => if x.length = n then some (mv x) else none
  | .Identity n, x => if x.length = n then some x else none
  | .Sum A B, x => do
    let u ← applyOp A x
    let v ← applyOp B x
    pure (List.zipWith (fun a b => a + b) u v)
  | .Product A B, x => do
    let v ← applyOp B x
    applyOp A v
  | .Scaled c A, x => (applyOp A x).map (List.map (fun a => c * a))

/-- Modelled from the spec: `todense` materializes an operator as an explicit
matrix.  A `Matrix` operator returns its stored array; a function-backed
operator is materialized by applying its callable to the standard basis
vectors (applying the operator to the identity matrix); composites are
materialized from their constituents. -/
def todense : LinOp → Mat
  | .Matrix A => A
  | .LinearOperator m n _ mv =>
      (List.range m).map (fun i => (List.range n).map (fun j => (mv (unitVec n j)).getD i 0))
  | .Identity n => idMat n
  | .Sum A B => matAdd (todense A) (todense B)
  | .Product A B => matMul (todense A) (todense B)
  | .Scaled c A => scaleMat c (todense A)

/-- Modelled from the spec: `transpose()` of an operator.  A matrix-backed
operator transposes its stored array; a function-backed operator falls back to
a dense materialization; composites transpose structurally. -/
def transpose : LinOp → LinOp
  | .Matrix A => .Matrix (transposeMat A)
  | .LinearOperator m n dt mv => .Matrix (transposeMat (todense (.LinearOperator m n dt mv)))
  | .Identity n => .Identity n
  | .Sum A B => .Sum (transpose A) (transpose B)
  | .Product A B => .Product (transpose B) (transpose A)
  | .Scaled c A => .Scaled c (transpose A)

/-- Modelled from the spec: the `.T` property is an alias calling
`transpose()`. -/
def T (L : LinOp) : LinOp := transpose L

/-- Modelled from the spec: `A + B` on operators builds a lazy
`SumLinearOperator` holding the two constituents; the shapes must agree,
otherwise construction fails. -/
def addOp (A B : LinOp) : Option LinOp :=
  if shape A = shape B then some (.Sum A B) else none

/-- Modelled from the spec: `A @ B` on operators builds a lazy
`ProductLinearOperator` holding the two constituents; the inner dimensions
must agree, otherwise construction fails. -/
def mulOp (A B : LinOp) : Option LinOp :=
  if (shape A).2 = (shape B).1 then some (.Product A B) else none

/-- Modelled from the spec: the normal random-variable object of the missing
probnum.randvars package, carrying a mean vector and a covariance matrix. -/
structure Normal where
  mean : Vec
  cov : Mat

/-- Apply an operator to each vector of a list (the columns of a matrix),
failing if any single application fails. -/
def applyCols (L : LinOp) : List Vec → Option (List Vec)
  | [] => some []
  | c :: cs => do
    let y ← applyOp L c
    let ys ← applyCols L cs
    pure (y :: ys)

/-- Apply an operator to a matrix columnwise: the columns of `L @ M` are the
images of the columns of `M`. -/
def applyMat (L : LinOp) (M : Mat) : Option Mat :=
  (applyCols L (transposeMat M)).map (fun C => transposeMat C)

/-- Modelled from the spec: applying an operator to a normal random variable
yields a new normal random variable with transformed parameters: the mean is
the image of the mean, and the covariance is obtained by applying the operator
to the covariance from both sides (L Σ Lᵀ), computed by two columnwise
applications of the operator itself. -/
def applyToNormal (L : LinOp) (rv : Normal) : Option Normal := do
  let mu ← applyOp L rv.mean
  let S1 ← applyMat L rv.cov
  let S2 ← applyMat L (transposeMat S1)
  pure ⟨mu, transposeMat S2⟩

/-- `WF L`: L is a well-formed linear operator: stored arrays are rectangular,
a function-backed operator's callable agrees with some matrix of the declared
shape (it computes a genuine matrix-vector product), and composites were built
from conformable constituents. -/
inductive WF : LinOp → Prop
  | Matrix {m n : Nat} {A : Mat} : IsMat m n A → WF (.Matrix A)
  | LinearOperator {m n : Nat} {dt : DType} {mv : Vec → Vec} (M : Mat) :
      IsMat m n M → (∀ v : Vec, v.length = n → mv v = matVec M v) →
      WF (.LinearOperator m n dt mv)
  | Identity {n : Nat} : WF (.Identity n)
  | Sum {A B : LinOp} : WF A → WF B → shape A = shape B → WF (.Sum A B)
  | Product {A B : LinOp} : WF A → WF B → (shape A).2 = (shape B).1 → WF (.Product A B)
  | Scaled {c : ℚ} {A : LinOp} : WF A → WF (.Scaled c A)

/-! ### Concrete data from the notebook -/

/-- The 5-by-5 cyclic permutation matrix P of the notebook. -/
def P5 : Mat :=
  [[0, 0, 0, 0, 1],
   [1, 0, 0, 0, 0],
   [0, 1, 0, 0, 0],
   [0, 0, 1, 0, 0],
   [0, 0, 0, 1, 0]]

/-- The notebook's vector x = [0, 1, 2, 3, 4]. -/
def x5 : Vec := [0, 1, 2, 3, 4]

/-- The operator `Matrix(P)` of the notebook. -/
def P_op5 : LinOp := .Matrix P5

/-- The notebook's matrix-free permutation: np.roll(v, 1) moves the last entry
to the front. -/
def nproll (v : Vec) : Vec := v.drop (v.length - 1) ++ v.take (v.length - 1)

/-- The notebook's matrix-free operator
`LinearOperator(shape=(5, 5), dtype=np.float_, matmul=broadcast_matvec(nproll))`. -/
def rollOp : LinOp := .LinearOperator 5 5 .float64 (broadcast_matvec nproll)

/-- The notebook's projection callable v ↦ v[:2]. -/
def projMv (v : Vec) : Vec := v.take 2

/-- The notebook's projection operator `Pr` of shape (2, 3). -/
def PrOp : LinOp := .LinearOperator 2 3 .float64 (broadcast_matvec projMv)

/-- The dense form of the projection operator. -/
def PrMat : Mat := [[1, 0, 0], [0, 1, 0]]

/-- The notebook's 3-dimensional normal random variable. -/
def rv3 : Normal := ⟨[3, 2, 1], [[1, 0, 0], [0, 2, 0], [0, 0, 3]]⟩

/-! ### List toolkit -/

theorem getD_mem {α : Type} (d : α) :
    ∀ (l : List α) (i : Nat), i < l.length → l.getD i d ∈ l
  | a :: l, 0, _ => List.mem_cons_self a l
  | a :: l, i + 1, h => List.mem_cons_of_mem a (getD_mem d l i (Nat.lt_of_succ_lt_succ h))

theorem list_ext_getD {α : Type} (d : α) :
    ∀ (l₁ l₂ : List α), l₁.length = l₂.length →
      (∀ i : Nat, i < l₁.length → l₁.getD i d = l₂.getD i d) → l₁ = l₂
  | [], [], _, _ => rfl
  | [], _ :: _, h, _ => absurd h (by simp)
  | _ :: _, [], h, _ => absurd h (by simp)
  | a :: l₁, b :: l₂, h, h2 => by
    have hab : a = b := h2 0 (Nat.succ_pos _)
    have ht : l₁ = l₂ :=
      list_ext_getD d l₁ l₂ (Nat.succ.inj (by simpa using h))
        (fun i hi => h2 (i + 1) (Nat.succ_lt_succ hi))
    rw [hab, ht]

theorem getD_map {α β : Type} (f : α → β) (d : α) (d2 : β) :
    ∀ (l : List α) (i : Nat), i < l.length → (l.map f).getD i d2 = f (l.getD i d)
  | _ :: _, 0, _ => rfl
  | _ :: l, i + 1, h => getD_map f d d2 l i (Nat.lt_of_succ_lt_succ h)

theorem getD_range (d : Nat) : ∀ (n i : Nat), i < n → (List.range n).getD i d = i := by
  intro n
  induction n with
  | zero => intro i h; exact absurd h (Nat.not_lt_zero i)
  | succ n ih =>
    intro i h
    rw [List.range_succ_eq_map]
    cases i with
    | zero => rfl
    | succ i =>
      rw [List.getD_cons_succ, getD_map Nat.succ d d _ i (by simpa using Nat.lt_of_succ_lt_succ h),
        ih i (Nat.lt_of_succ_lt_succ h)]

theorem getD_range_map {α : Type} (f : Nat → α) (d : α) (n i : Nat) (h : i < n) :
    ((List.range n).map f).getD i d = f i := by
  rw [getD_map f 0 d _ i (by simpa using h), getD_range 0 n i h]

theorem getD_zipWith {α β γ : Type} (f : α → β → γ) (da : α) (db : β) (dg : γ) :
    ∀ (a : List α) (b : List β) (i : Nat), i < a.length → i < b.length →
      (List.zipWith f a b).getD i dg = f (a.getD i da) (b.getD i db)
  | _ :: _, _ :: _, 0, _, _ => rfl
  | _ :: a, _ :: b, i + 1, ha, hb =>
    getD_zipWith f da db dg a b i (Nat.lt_of_succ_lt_succ ha) (Nat.lt_of_succ_lt_succ hb)

theorem map_range_getD {α : Type} (d : α) :
    ∀ (r : List α), (List.range r.length).map (fun j => r.getD j d) = r
  | [] => rfl
  | a :: r => by
    rw [List.length_cons, List.range_succ_eq_map]
    simp only [List.map_cons, List.getD_cons_zero, List.map_map]
    have : ((fun j => (a :: r).getD j d) ∘ Nat.succ) = fun j => r.getD j d := by
      funext j; rfl
    rw [this, map_range_getD d r]

/-! ### Dot-product lemmas -/

theorem dot_nil_left (x : Vec) : dot [] x = 0 := rfl

theorem dot_nil_right (r : Vec) : dot r [] = 0 := by cases r <;> rfl

theorem dot_cons (a b : ℚ) (r x : Vec) : dot (a :: r) (b :: x) = a * b + dot r x := rfl

theorem dot_comm : ∀ (r x : Vec), dot r x = dot x r
  | [], x => by rw [dot_nil_left, dot_nil_right]
  | a :: r, [] => by rw [dot_nil_left, dot_nil_right]
  | a :: r, b :: x => by rw [dot_cons, dot_cons, dot_comm r x, mul_comm]

theorem dot_eq_sum :
    ∀ (r x : Vec), r.length = x.length →
      dot r x = ∑ i ∈ Finset.range x.length, r.getD i 0 * x.getD i 0
  | [], [], _ => by simp [dot]
  | [], _ :: _, h => absurd h (by simp)
  | _ :: _, [], h => absurd h (by simp)
  | a :: r, b :: x, h => by
    have h' : r.length = x.length := Nat.succ.inj (by simpa using h)
    rw [dot_cons, dot_eq_sum r x h', List.length_cons,
      Finset.sum_range_succ' (fun i => (a :: r).getD i 0 * (b :: x).getD i 0) x.length]
    simp only [List.getD_cons_succ, List.getD_cons_zero]
    rw [add_comm]

theorem length_unitVec (n j : Nat) : (unitVec n j).length = n := by simp [unitVec]

theorem getD_unitVec (n j i : Nat) (h : i < n) :
    (unitVec n j).getD i 0 = if i = j then 1 else 0 :=
  getD_range_map _ 0 n i h

theorem dot_unit (r : Vec) (n j : Nat) (h : r.length = n) :
    dot r (unitVec n j) = r.getD j 0 := by
  rw [dot_eq_sum r (unitVec n j) (by rw [h, length_unitVec]), length_unitVec]
  have : ∀ i ∈ Finset.range n, r.getD i 0 * (unitVec n j).getD i 0
      = if i = j then r.getD i 0 else 0 := by
    intro i hi
    rw [getD_unitVec n j i (Finset.mem_range.mp hi)]
    by_cases hij : i = j <;> simp [hij]
  rw [Finset.sum_congr rfl this, Finset.sum_ite_eq' (Finset.range n) j (fun i => r.getD i 0)]
  by_cases hj : j < n
  · simp [hj]
  · have hlen : r.length ≤ j := by omega
    rw [if_neg (by simpa using hj)]
    exact (List.getD_eq_default r 0 hlen).symm

theorem dot_smul (c : ℚ) :
    ∀ (r x : Vec), dot (r.map (fun a => c * a)) x = c * dot r x
  | [], x => by simp [dot]
  | a :: r, [] => by simp [dot]
  | a :: r, b :: x => by
    simp only [List.map_cons, dot_cons, dot_smul c r x]
    ring

theorem dot_addv :
    ∀ (r s x : Vec), r.length = s.length →
      dot (List.zipWith (fun a b => a + b) r s) x = dot r x + dot s x
  | [], [], x, _ => by simp [dot]
  | [], _ :: _, _, h => absurd h (by simp)
  | _ :: _, [], _, h => absurd h (by simp)
  | a :: r, b :: s, [], _ => by simp [dot]
  | a :: r, b :: s, c :: x, h => by
    simp only [List.zipWith_cons_cons, dot_cons]
    rw [dot_addv r s x (Nat.succ.inj (by simpa using h))]
    ring

/-! ### Matrix lemmas -/

theorem length_matVec (A : Mat) (x : Vec) : (matVec A x).length = A.length := by
  simp [matVec]

theorem getD_matVec {A : Mat} (x : Vec) {i : Nat} (h : i < A.length) :
    (matVec A x).getD i 0 = dot (A.getD i []) x :=
  getD_map (fun r => dot r x) [] 0 A i h

theorem row_length_isMat {m n : Nat} {M : Mat} (h : IsMat m n M) {i : Nat} (hi : i < m) :
    (M.getD i []).length = n :=
  h.2.1 _ (getD_mem [] M i (by rw [h.1]; exact hi))

theorem colsOf_isMat {m n : Nat} {M : Mat} (h : IsMat m n M) : colsOf M = n := by
  obtain ⟨hl, hr, hz⟩ := h
  cases M with
  | nil =>
    have : n = 0 := hz.mp (by simpa using hl.symm)
    simp [colsOf, this]
  | cons r M' => simpa [colsOf] using hr r (by simp)

theorem length_transposeMat (M : Mat) : (transposeMat M).length = colsOf M := by
  simp [transposeMat]

theorem getD_transposeMat {M : Mat} {j : Nat} (h : j < colsOf M) :
    (transposeMat M).getD j [] = M.map (fun r => r.getD j 0) :=
  getD_range_map _ [] _ j h

theorem isMat_transposeMat {m n : Nat} {M : Mat} (h : IsMat m n M) :
    IsMat n m (transposeMat M) := by
  refine ⟨by rw [length_transposeMat, colsOf_isMat h], ?_, h.2.2.symm⟩
  intro r hr
  simp only [transposeMat, List.mem_map] at hr
  obtain ⟨j, _, rfl⟩ := hr
  simp [h.1]

theorem getD_getD_transposeMat {m n : Nat} {M : Mat} (h : IsMat m n M) {i j : Nat}
    (hi : i < m) (hj : j < n) :
    ((transposeMat M).getD j []).getD i 0 = (M.getD i []).getD j 0 := by
  rw [getD_transposeMat (by rw [colsOf_isMat h]; exact hj)]
  exact getD_map _ [] 0 M i (by rw [h.1]; exact hi)

theorem transposeMat_transposeMat {m n : Nat} {M : Mat} (h : IsMat m n M) :
    transposeMat (transposeMat M) = M := by
  have hT : IsMat n m (transposeMat M) := isMat_transposeMat h
  have hTT : IsMat m n (transposeMat (transposeMat M)) := isMat_transposeMat hT
  apply list_ext_getD [] _ _ (by rw [hTT.1, h.1])
  intro i hi
  have him : i < m := by rw [hTT.1] at hi; exact hi
  apply list_ext_getD 0 _ _ (by rw [row_length_isMat hTT him, row_length_isMat h him])
  intro j hj
  have hjn : j < n := by rw [row_length_isMat hTT him] at hj; exact hj
  rw [getD_getD_transposeMat hT hjn him, getD_getD_transposeMat h him hjn]

theorem mem_zipWith {α β γ : Type} {f : α → β → γ} :
    ∀ {a : List α} {b : List β} {c : γ}, c ∈ List.zipWith f a b →
      ∃ x ∈ a, ∃ y ∈ b, c = f x y := by
  intro a
  induction a with
  | nil => intro b c h; simp at h
  | cons x a ih =>
    intro b c h
    cases b with
    | nil => simp at h
    | cons y b =>
      rw [List.zipWith_cons_cons, List.mem_cons] at h
      rcases h with h | h
      · exact ⟨x, by simp, y, by simp, h⟩
      · obtain ⟨x', hx', y', hy', rfl⟩ := ih h
        exact ⟨x', by simp [hx'], y', by simp [hy'], rfl⟩

theorem isMat_matAdd {m n : Nat} {A B : Mat} (hA : IsMat m n A) (hB : IsMat m n B) :
    IsMat m n (matAdd A B) := by
  refine ⟨by simp [matAdd, hA.1, hB.1], ?_, hA.2.2⟩
  intro r hr
  simp only [matAdd] at hr
  obtain ⟨a, ha, b, hb, rfl⟩ := mem_zipWith hr
  simp [hA.2.1 a ha, hB.2.1 b hb]

theorem isMat_scaleMat {m n : Nat} (c : ℚ) {A : Mat} (hA : IsMat m n A) :
    IsMat m n (scaleMat c A) := by
  refine ⟨by simp [scaleMat, hA.1], ?_, hA.2.2⟩
  intro r hr
  simp only [scaleMat, List.mem_map] at hr
  obtain ⟨a, ha, rfl⟩ := hr
  simp [hA.2.1 a ha]

theorem isMat_matMul {m k n : Nat} {A B : Mat} (hA : IsMat m k A) (hB : IsMat k n B) :
    IsMat m n (matMul A B) := by
  refine ⟨by simp [matMul, hA.1], ?_, ?_⟩
  · intro r hr
    simp only [matMul, List.mem_map] at hr
    obtain ⟨a, _, rfl⟩ := hr
    simp [length_transposeMat, colsOf_isMat hB]
  · exact hA.2.2.trans hB.2.2

theorem getD_matMul {A B : Mat} {i : Nat} (h : i < A.length) :
    (matMul A B).getD i [] = (transposeMat B).map (fun col => dot (A.getD i []) col) :=
  getD_map _ [] [] A i h

theorem matVec_matAdd {m n : Nat} {A B : Mat} (hA : IsMat m n A) (hB : IsMat m n B)
    (x : Vec) :
    matVec (matAdd A B) x = List.zipWith (fun a b => a + b) (matVec A x) (matVec B x) := by
  have hS : IsMat m n (matAdd A B) := isMat_matAdd hA hB
  apply list_ext_getD 0
  · rw [length_matVec, hS.1, List.length_zipWith, length_matVec, length_matVec, hA.1, hB.1,
      Nat.min_self]
  · intro i hi
    have him : i < m := by rw [length_matVec, hS.1] at hi; exact hi
    rw [getD_matVec x (by rw [hS.1]; exact him),
      getD_zipWith _ 0 0 0 _ _ i (by rw [length_matVec, hA.1]; exact him)
        (by rw [length_matVec, hB.1]; exact him),
      getD_matVec x (by rw [hA.1]; exact him), getD_matVec x (by rw [hB.1]; exact him)]
    have : (matAdd A B).getD i [] =
        List.zipWith (fun a b => a + b) (A.getD i []) (B.getD i []) :=
      getD_zipWith _ [] [] [] A B i (by rw [hA.1]; exact him) (by rw [hB.1]; exact him)
    rw [this, dot_addv _ _ x (by rw [row_length_isMat hA him, row_length_isMat hB him])]

theorem matVec_scaleMat (c : ℚ) (A : Mat) (x : Vec) :
    matVec (scaleMat c A) x = (matVec A x).map (fun a => c * a) := by
  simp only [matVec, scaleMat, List.map_map]
  apply List.map_congr_left
  intro r _
  simp only [Function.comp_apply]
  exact dot_smul c r x

theorem matVec_idMat {n : Nat} (x : Vec) (hx : x.length = n) : matVec (idMat n) x = x := by
  subst hx
  simp only [matVec, idMat, List.map_map]
  have : ∀ i ∈ List.range x.length, (fun i => dot (unitVec x.length i) x) i
      = (fun i => x.getD i 0) i := by
    intro i _
    simp only
    rw [dot_comm, dot_unit x x.length i rfl]
  rw [Function.comp_def, List.map_congr_left this, map_range_getD 0 x]

theorem isMat_idMat (n : Nat) : IsMat n n (idMat n) := by
  refine ⟨by simp [idMat], ?_, Iff.rfl⟩
  intro r hr
  simp only [idMat, List.mem_map] at hr
  obtain ⟨i, _, rfl⟩ := hr
  exact length_unitVec n i

theorem matVec_matMul {m k n : Nat} {A B : Mat} (hA : IsMat m k A) (hB : IsMat k n B)
    (x : Vec) (hx : x.length = n) :
    matVec (matMul A B) x = matVec A (matVec B x) := by
  have hAB : IsMat m n (matMul A B) := isMat_matMul hA hB
  have hBT : IsMat n k (transposeMat B) := isMat_transposeMat hB
  apply list_ext_getD 0
  · rw [length_matVec, length_matVec, hAB.1, hA.1]
  · intro i hi
    have him : i < m := by rw [length_matVec, hAB.1] at hi; exact hi
    rw [getD_matVec x (by rw [hAB.1]; exact him),
      getD_matVec (matVec B x) (by rw [hA.1]; exact him), getD_matMul (by rw [hA.1]; exact him)]
    set Ai := A.getD i [] with hAidef
    have hAi : Ai.length = k := row_length_isMat hA him
    -- left side: dot of the mapped transpose rows with x
    have hlen1 : ((transposeMat B).map (fun col => dot Ai col)).length = x.length := by
      rw [List.length_map, hBT.1, hx]
    rw [dot_eq_sum _ x hlen1, hx]
    have hstep1 : ∀ j ∈ Finset.range n,
        ((transposeMat B).map (fun col => dot Ai col)).getD j 0 * x.getD j 0
          = (∑ l ∈ Finset.range k, Ai.getD l 0 * (B.getD l []).getD j 0) * x.getD j 0 := by
      intro j hj
      have hjn : j < n := Finset.mem_range.mp hj
      rw [getD_map _ [] 0 _ j (by rw [hBT.1]; exact hjn)]
      have hcol : ((transposeMat B).getD j []).length = k := row_length_isMat hBT hjn
      rw [dot_eq_sum Ai _ (by rw [hAi, hcol]), hcol]
      have : ∀ l ∈ Finset.range k,
          Ai.getD l 0 * ((transposeMat B).getD j []).getD l 0
            = Ai.getD l 0 * (B.getD l []).getD j 0 := by
        intro l hl
        rw [getD_getD_transposeMat hB (Finset.mem_range.mp hl) hjn]
      rw [Finset.sum_congr rfl this]
    rw [Finset.sum_congr rfl hstep1]
    -- right side: expand the outer and inner dot products
    have hlen2 : Ai.length = (matVec B x).length := by rw [hAi, length_matVec, hB.1]
    rw [dot_eq_sum Ai _ hlen2, length_matVec, hB.1]
    have hstep2 : ∀ l ∈ Finset.range k,
        Ai.getD l 0 * (matVec B x).getD l 0
          = Ai.getD l 0 * ∑ j ∈ Finset.range n, (B.getD l []).getD j 0 * x.getD j 0 := by
      intro l hl
      have hlk : l < k := Finset.mem_range.mp hl
      rw [getD_matVec x (by rw [hB.1]; exact hlk),
        dot_eq_sum _ x (by rw [row_length_isMat hB hlk, hx]), hx]
    rw [Finset.sum_congr rfl hstep2]
    have hpush : ∀ j ∈ Finset.range n,
        (∑ l ∈ Finset.range k, Ai.getD l 0 * (B.getD l []).getD j 0) * x.getD j 0
          = ∑ l ∈ Finset.range k, Ai.getD l 0 * (B.getD l []).getD j 0 * x.getD j 0 := by
      intro j _
      rw [Finset.sum_mul]
    rw [Finset.sum_congr rfl hpush, Finset.sum_comm]
    apply Finset.sum_congr rfl
    intro l _
    rw [Finset.mul_sum]
    apply Finset.sum_congr rfl
    intro j _
    ring

theorem reconstruct_matVec {m n : Nat} {M : Mat} (hM : IsMat m n M) (mv : Vec → Vec)
    (hmv : ∀ v : Vec, v.length = n → mv v = matVec M v) :
    (List.range m).map (fun i => (List.range n).map (fun j => (mv (unitVec n j)).getD i 0)) = M := by
  apply list_ext_getD []
  · simp [hM.1]
  · intro i hi
    have him : i < m := by simpa using hi
    rw [getD_range_map _ [] m i him]
    have hrow : (M.getD i []).length = n := row_length_isMat hM him
    have hcong : ∀ j ∈ List.range n,
        (fun j => (mv (unitVec n j)).getD i 0) j = (fun j => (M.getD i []).getD j 0) j := by
      intro j _
      simp only
      rw [hmv _ (length_unitVec n j), getD_matVec _ (by rw [hM.1]; exact him),
        dot_unit _ n j hrow]
    rw [List.map_congr_left hcong]
    have : (List.range n) = List.range (M.getD i []).length := by rw [hrow]
    rw [this, map_range_getD 0 (M.getD i [])]

/-! ### The central correspondence: application agrees with the dense matrix -/

theorem todense_spec {L : LinOp} (hL : WF L) :
    IsMat (shape L).1 (shape L).2 (todense L) ∧
      ∀ x : Vec, x.length = (shape L).2 → applyOp L x = some (matVec (todense L) x) := by
  induction hL with
  | Matrix hA =>
    rename_i m n A
    have hs : shape (LinOp.Matrix A) = (m, n) := by
      simp [shape, hA.1, colsOf_isMat hA]
    rw [hs]
    simp only [todense]
    refine ⟨hA, ?_⟩
    intro x hx
    simp [applyOp, colsOf_isMat hA, hx]
  | LinearOperator M hM hmv =>
    rename_i m n dt mv
    have hden : todense (LinOp.LinearOperator m n dt mv) = M := by
      simp only [todense]
      exact reconstruct_matVec hM mv hmv
    have hs : shape (LinOp.LinearOperator m n dt mv) = (m, n) := rfl
    rw [hs, hden]
    refine ⟨hM, ?_⟩
    intro x hx
    simp [applyOp, hx, hmv x hx]
  | Identity =>
    rename_i n
    have hs : shape (LinOp.Identity n) = (n, n) := rfl
    rw [hs]
    simp only [todense]
    refine ⟨isMat_idMat n, ?_⟩
    intro x hx
    simp [applyOp, hx, matVec_idMat x hx]
  | Sum hA hB hsh ihA ihB =>
    rename_i A B
    obtain ⟨hDA, hapA⟩ := ihA
    obtain ⟨hDB, hapB⟩ := ihB
    rw [← hsh] at hDB
    have hs : shape (LinOp.Sum A B) = shape A := rfl
    rw [hs]
    simp only [todense]
    refine ⟨isMat_matAdd hDA hDB, ?_⟩
    intro x hx
    have h1 := hapA x hx
    have h2 := hapB x (by rw [← hsh]; exact hx)
    simp only [applyOp, h1, h2, Option.bind_some]
    rw [matVec_matAdd hDA hDB x]
    rfl
  | Product hA hB hconf ihA ihB =>
    rename_i A B
    obtain ⟨hDA, hapA⟩ := ihA
    obtain ⟨hDB, hapB⟩ := ihB
    rw [← hconf] at hDB
    have hs : shape (LinOp.Product A B) = ((shape A).1, (shape B).2) := rfl
    rw [hs]
    simp only [todense]
    refine ⟨isMat_matMul hDA hDB, ?_⟩
    intro x hx
    have h2 := hapB x hx
    have hlen : (matVec (todense B) x).length = (shape A).2 := by
      rw [length_matVec, hDB.1]
    have h1 := hapA (matVec (todense B) x) hlen
    simp [applyOp, h2, h1, matVec_matMul hDA hDB x hx]
  | Scaled hA ihA =>
    rename_i c A
    obtain ⟨hDA, hapA⟩ := ihA
    have hs : shape (LinOp.Scaled c A) = shape A := rfl
    rw [hs]
    simp only [todense]
    refine ⟨isMat_scaleMat c hDA, ?_⟩
    intro x hx
    have h1 := hapA x hx
    simp only [applyOp, h1]
    rw [matVec_scaleMat c (todense A) x]
    rfl

theorem applyOp_none {L : LinOp} (hL : WF L) :
    ∀ x : Vec, x.length ≠ (shape L).2 → applyOp L x = none := by
  induction hL with
  | Matrix hA =>
    rename_i m n A
    intro x hx
    simp only [applyOp]
    rw [if_neg]
    intro hcontra
    exact hx hcontra
  | LinearOperator M hM hmv =>
    intro x hx
    simp only [applyOp]
    rw [if_neg]
    intro hcontra
    exact hx hcontra
  | Identity =>
    intro x hx
    simp only [applyOp]
    rw [if_neg]
    intro hcontra
    exact hx hcontra
  | Sum hA hB hsh ihA ihB =>
    intro x hx
    have h1 := ihA x hx
    simp [applyOp, h1]
  | Product hA hB hconf ihA ihB =>
    intro x hx
    have h2 := ihB x hx
    simp [applyOp, h2]
  | Scaled hA ihA =>
    intro x hx
    have h1 := ihA x hx
    simp [applyOp, h1]

theorem applyOp_some_length {L : LinOp} (hL : WF L) {x v : Vec}
    (h : applyOp L x = some v) :
    x.length = (shape L).2 ∧ v.length = (shape L).1 := by
  by_cases hx : x.length = (shape L).2
  · refine ⟨hx, ?_⟩
    rw [(todense_spec hL).2 x hx] at h
    have hv : v = matVec (todense L) x := (Option.some_injective _ h).symm
    rw [hv, length_matVec, (todense_spec hL).1.1]
  · rw [applyOp_none hL x hx] at h
    cases h

/-! ### Columnwise application and transposition bridges -/

theorem applyMat_dense {m n p : Nat} {D S : Mat} (hD : IsMat m n D) (hS : IsMat n p S) :
    transposeMat ((transposeMat S).map (fun c => matVec D c)) = matMul D S := by
  have hST : IsMat p n (transposeMat S) := isMat_transposeMat hS
  have hX : IsMat p m ((transposeMat S).map (fun c => matVec D c)) := by
    refine ⟨by simp [hST.1], ?_, hS.2.2.symm.trans hD.2.2.symm⟩
    intro r hr
    simp only [List.mem_map] at hr
    obtain ⟨c, _, rfl⟩ := hr
    rw [length_matVec, hD.1]
  have hTX : IsMat m p (transposeMat ((transposeMat S).map (fun c => matVec D c))) :=
    isMat_transposeMat hX
  have hMM : IsMat m p (matMul D S) := isMat_matMul hD hS
  apply list_ext_getD [] _ _ (by rw [hTX.1, hMM.1])
  intro i hi
  have him : i < m := by rw [hTX.1] at hi; exact hi
  apply list_ext_getD 0 _ _ (by rw [row_length_isMat hTX him, row_length_isMat hMM him])
  intro j hj
  have hjp : j < p := by rw [row_length_isMat hTX him] at hj; exact hj
  rw [getD_getD_transposeMat hX hjp him,
    getD_map _ [] [] _ j (by rw [hST.1]; exact hjp),
    getD_matVec _ (by rw [hD.1]; exact him),
    getD_matMul (by rw [hD.1]; exact him),
    getD_map _ [] 0 _ j (by rw [length_transposeMat, colsOf_isMat hS]; exact hjp)]

theorem transposeMat_matMul_swap {m n p : Nat} {A B : Mat} (hA : IsMat m n A)
    (hB : IsMat p n B) :
    transposeMat (matMul A (transposeMat B)) = matMul B (transposeMat A) := by
  have hBT : IsMat n p (transposeMat B) := isMat_transposeMat hB
  have hAT : IsMat n m (transposeMat A) := isMat_transposeMat hA
  have hM1 : IsMat m p (matMul A (transposeMat B)) := isMat_matMul hA hBT
  have hL : IsMat p m (transposeMat (matMul A (transposeMat B))) := isMat_transposeMat hM1
  have hR : IsMat p m (matMul B (transposeMat A)) := isMat_matMul hB hAT
  apply list_ext_getD [] _ _ (by rw [hL.1, hR.1])
  intro i hi
  have hip : i < p := by rw [hL.1] at hi; exact hi
  apply list_ext_getD 0 _ _ (by rw [row_length_isMat hL hip, row_length_isMat hR hip])
  intro j hj
  have hjm : j < m := by rw [row_length_isMat hL hip] at hj; exact hj
  rw [getD_getD_transposeMat hM1 hjm hip,
    getD_matMul (by rw [hA.1]; exact hjm),
    getD_map _ [] 0 _ i
      (by rw [length_transposeMat, colsOf_isMat hBT]; exact hip),
    transposeMat_transposeMat hB,
    getD_matMul (by rw [hB.1]; exact hip),
    getD_map _ [] 0 _ j
      (by rw [length_transposeMat, colsOf_isMat hAT]; exact hjm),
    transposeMat_transposeMat hA, dot_comm]

theorem applyCols_spec {L : LinOp} (hL : WF L) (cs : List Vec)
    (h : ∀ c ∈ cs, c.length = (shape L).2) :
    applyCols L cs = some (cs.map (fun c => matVec (todense L) c)) := by
  induction cs with
  | nil => rfl
  | cons c cs ih =>
    have h1 := (todense_spec hL).2 c (h c (by simp))
    have h2 := ih (fun c' hc' => h c' (by simp [hc']))
    simp [applyCols, h1, h2]

theorem applyMat_spec {m n p : Nat} {L : LinOp} (hL : WF L) (hs : shape L = (m, n))
    {S : Mat} (hS : IsMat n p S) :
    applyMat L S = some (matMul (todense L) S) := by
  have hD : IsMat m n (todense L) := by
    have := (todense_spec hL).1
    rw [hs] at this
    exact this
  have hST : IsMat p n (transposeMat S) := isMat_transposeMat hS
  have hcols : ∀ c ∈ transposeMat S, c.length = (shape L).2 := by
    intro c hc
    rw [hST.2.1 c hc, hs]
  rw [applyMat, applyCols_spec hL _ hcols]
  simp only [Option.map_some']
  rw [applyMat_dense hD hS]

theorem applyToNormal_spec {m n : Nat} {L : LinOp} (hL : WF L) (hs : shape L = (m, n))
    {mu mu' : Vec} {S : Mat} (hmu : applyOp L mu = some mu') (hS : IsMat n n S) :
    applyToNormal L ⟨mu, S⟩ =
      some ⟨mu', matMul (matMul (todense L) S) (transposeMat (todense L))⟩ := by
  have hD : IsMat m n (todense L) := by
    have := (todense_spec hL).1
    rw [hs] at this
    exact this
  have h1 : applyMat L S = some (matMul (todense L) S) := applyMat_spec hL hs hS
  have hS1mat : IsMat m n (matMul (todense L) S) := isMat_matMul hD hS
  have hS1T : IsMat n m (transposeMat (matMul (todense L) S)) := isMat_transposeMat hS1mat
  have h2 : applyMat L (transposeMat (matMul (todense L) S))
      = some (matMul (todense L) (transposeMat (matMul (todense L) S))) :=
    applyMat_spec hL hs hS1T
  simp [applyToNormal, hmu, h1, h2]
  rw [transposeMat_matMul_swap hD hS1mat]

/-! ### Transposition of a matrix-backed operator -/

theorem applyOp_transpose_Matrix {m n : Nat} {A : Mat} (hA : IsMat m n A) (x : Vec)
    (hx : x.length = m) :
    applyOp (transpose (.Matrix A)) x = some (matVec (transposeMat A) x) := by
  have hT : IsMat n m (transposeMat A) := isMat_transposeMat hA
  simp [transpose, applyOp, colsOf_isMat hT, hx]

/-! ### The notebook's concrete operators are well-formed -/

theorem nproll_matVec (v : Vec) (hv : v.length = 5) : nproll v = matVec P5 v := by
  rcases v with _ | ⟨a, _ | ⟨b, _ | ⟨c, _ | ⟨d, _ | ⟨e, _ | ⟨f, v⟩⟩⟩⟩⟩⟩ <;>
    simp only [List.length_cons, List.length_nil] at hv <;> try omega
  show nproll [a, b, c, d, e] = matVec P5 [a, b, c, d, e]
  simp [nproll, matVec, P5, dot]

theorem projMv_matVec (v : Vec) (hv : v.length = 3) : projMv v = matVec PrMat v := by
  rcases v with _ | ⟨a, _ | ⟨b, _ | ⟨c, _ | ⟨d, v⟩⟩⟩⟩ <;>
    simp only [List.length_cons, List.length_nil] at hv <;> try omega
  show projMv [a, b, c] = matVec PrMat [a, b, c]
  simp [projMv, matVec, PrMat, dot]

theorem wf_P_op5 : WF P_op5 :=
  WF.Matrix (by decide : IsMat 5 5 P5)

theorem wf_rollOp : WF rollOp :=
  WF.LinearOperator P5 (by decide : IsMat 5 5 P5) (fun v hv => nproll_matVec v hv)

theorem wf_PrOp : WF PrOp :=
  WF.LinearOperator PrMat (by decide : IsMat 2 3 PrMat) (fun v hv => projMv_matVec v hv)

/-! ### Small evaluation helpers for the concrete notebook data -/

theorem range_two : List.range 2 = [0, 1] := rfl

theorem range_three : List.range 3 = [0, 1, 2] := rfl

theorem range_five : List.range 5 = [0, 1, 2, 3, 4] := rfl

/-! ### The claims -/

/-- C1: wrapping an explicit 2-D numeric array A in the `Matrix` operator and
applying it with `@` to a vector whose length equals the column count of A
returns exactly the matrix-vector product A @ x; on the notebook's 5x5 cyclic
permutation, `Matrix(P) @ [0,1,2,3,4]` returns `[4,0,1,2,3]`. -/
theorem C1_matrix_operator_applies_array :
    (∀ (m n : Nat) (A : Mat) (x : Vec), IsMat m n A → x.length = n →
      applyOp (.Matrix A) x = some (matVec A x)) ∧
    applyOp P_op5 x5 = some [4, 0, 1, 2, 3] := by
  constructor
  · intro m n A x hA hx
    simp [applyOp, colsOf_isMat hA, hx]
  · norm_num [applyOp, P_op5, P5, x5, matVec, dot, colsOf]

theorem C1_matrix_operator_applies_array_witness :
    IsMat 5 5 P5 ∧ x5.length = 5 ∧ applyOp (LinOp.Matrix P5) x5 = some (matVec P5 x5) :=
  ⟨by decide, by decide,
    C1_matrix_operator_applies_array.1 5 5 P5 x5 (by decide) (by decide)⟩

/-- C2: an operator built from a declared shape, dtype and a matrix-vector
callable (wrapped with `broadcast_matvec`) applied to a conformable vector
returns exactly the callable's value, the operator storing only the callable
and the declared shape/dtype and no matrix entries; the notebook's
`np.roll`-backed operator applied to `[0,1,2,3,4]` returns `[4,0,1,2,3]`. -/
theorem C2_function_backed_operator :
    (∀ (m n : Nat) (dt : DType) (mv : Vec → Vec) (x : Vec), x.length = n →
      applyOp (.LinearOperator m n dt (broadcast_matvec mv)) x = some (mv x)) ∧
    applyOp rollOp x5 = some [4, 0, 1, 2, 3] := by
  constructor
  · intro m n dt mv x hx
    simp [applyOp, broadcast_matvec, hx]
  · norm_num [applyOp, rollOp, broadcast_matvec, nproll, x5]

theorem C2_function_backed_operator_witness :
    x5.length = 5 ∧
      applyOp (LinOp.LinearOperator 5 5 DType.float64 (broadcast_matvec nproll)) x5
        = some (nproll x5) :=
  ⟨by decide, C2_function_backed_operator.1 5 5 DType.float64 nproll x5 (by decide)⟩

/-- C3: application of a composite operator is defined recursively in terms of
its constituents: `(A + B) @ x = (A @ x) + (B @ x)`, `(c * A) @ x = c * (A @ x)`
and `(A @ B) @ x = A @ (B @ x)`; the notebook's outputs `[5,2,4,6,3]`,
`[8,0,2,4,6]` and `[3,4,0,1,2]` witness the three cases for the permutation
operator. -/
theorem C3_composite_application_recursive :
    (∀ (A B : LinOp) (x u v : Vec), applyOp A x = some u → applyOp B x = some v →
      applyOp (.Sum A B) x = some (List.zipWith (fun a b => a + b) u v)) ∧
    (∀ (c : ℚ) (A : LinOp) (x u : Vec), applyOp A x = some u →
      applyOp (.Scaled c A) x = some (u.map (fun a => c * a))) ∧
    (∀ (A B : LinOp) (x v : Vec), applyOp B x = some v →
      applyOp (.Product A B) x = applyOp A v) ∧
    applyOp (.Sum P_op5 (transpose P_op5)) x5 = some [5, 2, 4, 6, 3] ∧
    applyOp (.Scaled 2 P_op5) x5 = some [8, 0, 2, 4, 6] ∧
    applyOp (.Product P_op5 P_op5) x5 = some [3, 4, 0, 1, 2] := by
  refine ⟨?_, ?_, ?_, ?_, ?_, ?_⟩
  · intro A B x u v hu hv
    simp [applyOp, hu, hv]
  · intro c A x u hu
    simp [applyOp, hu]
  · intro A B x v hv
    simp [applyOp, hv]
  · norm_num [applyOp, transpose, transposeMat, P_op5, P5, x5, matVec, dot, colsOf, range_five]
  · norm_num [applyOp, P_op5, P5, x5, matVec, dot, colsOf]
  · norm_num [applyOp, P_op5, P5, x5, matVec, dot, colsOf]

theorem C3_composite_application_recursive_witness :
    applyOp P_op5 x5 = some [4, 0, 1, 2, 3] ∧
    applyOp (transpose P_op5) x5 = some [1, 2, 3, 4, 0] ∧
    applyOp (.Sum P_op5 (transpose P_op5)) x5
      = some (List.zipWith (fun a b => a + b) [4, 0, 1, 2, 3] [1, 2, 3, 4, 0]) :=
  ⟨by simp [applyOp, P_op5, P5, x5, matVec, dot, colsOf],
   by simp [applyOp, transpose, transposeMat, P_op5, P5, x5, matVec, dot, colsOf, range_five],
   C3_composite_application_recursive.1 P_op5 (transpose P_op5) x5 [4, 0, 1, 2, 3] [1, 2, 3, 4, 0]
     (by simp [applyOp, P_op5, P5, x5, matVec, dot, colsOf])
     (by simp [applyOp, transpose, transposeMat, P_op5, P5, x5, matVec, dot, colsOf, range_five])⟩

/-- C4: applying an operator L of shape (m, n) to a normal random variable
with mean mu (length n) and covariance Sigma (n x n) yields a normal random
variable whose mean is L @ mu and whose covariance is L @ Sigma @ L.T; the
notebook's projection of the 3-D Normal with mean [3,2,1] and
cov diag(1,2,3) yields mean [3,2] and cov [[1,0],[0,2]]. -/
theorem C4_operator_transforms_normal :
    (∀ (m n : Nat) (L : LinOp) (mu mu' : Vec) (S : Mat), WF L → shape L = (m, n) →
      applyOp L mu = some mu' → IsMat n n S →
      applyToNormal L ⟨mu, S⟩
        = some ⟨mu', matMul (matMul (todense L) S) (transposeMat (todense L))⟩) ∧
    applyToNormal PrOp rv3 = some ⟨[3, 2], [[1, 0], [0, 2]]⟩ := by
  constructor
  · intro m n L mu mu' S hL hs hmu hS
    exact applyToNormal_spec hL hs hmu hS
  · norm_num [applyToNormal, applyMat, applyCols, applyOp, PrOp, broadcast_matvec, projMv,
      transposeMat, colsOf, rv3, range_two, range_three]

theorem C4_operator_transforms_normal_witness :
    WF PrOp ∧ shape PrOp = (2, 3) ∧
      applyOp PrOp [3, 2, 1] = some [3, 2] ∧
      IsMat 3 3 [[1, 0, 0], [0, 2, 0], [0, 0, 3]] ∧
      applyToNormal PrOp ⟨[3, 2, 1], [[1, 0, 0], [0, 2, 0], [0, 0, 3]]⟩
        = some ⟨[3, 2],
            matMul (matMul (todense PrOp) [[1, 0, 0], [0, 2, 0], [0, 0, 3]])
              (transposeMat (todense PrOp))⟩ :=
  ⟨wf_PrOp, rfl, by simp [applyOp, PrOp, broadcast_matvec, projMv], by decide,
    C4_operator_transforms_normal.1 2 3 PrOp [3, 2, 1] [3, 2] [[1, 0, 0], [0, 2, 0], [0, 0, 3]]
      wf_PrOp rfl (by simp [applyOp, PrOp, broadcast_matvec, projMv]) (by decide)⟩

/-- C5: `.T` and `.transpose()` agree, and for a matrix-backed operator the
transpose applied to a conformable vector equals the matrix-vector product of
the transposed array; the notebook's `Matrix(P).T @ [0,1,2,3,4]` returns
`[1,2,3,4,0]`, the inverse cyclic permutation. -/
theorem C5_transpose_agrees_with_array :
    (∀ L : LinOp, T L = transpose L) ∧
    (∀ (m n : Nat) (A : Mat) (x : Vec), IsMat m n A → x.length = m →
      applyOp (transpose (.Matrix A)) x = some (matVec (transposeMat A) x)) ∧
    applyOp (transpose P_op5) x5 = some [1, 2, 3, 4, 0] := by
  refine ⟨fun L => rfl, ?_, ?_⟩
  · intro m n A x hA hx
    exact applyOp_transpose_Matrix hA x hx
  · norm_num [applyOp, transpose, transposeMat, P_op5, P5, x5, matVec, dot, colsOf, range_five]

theorem C5_transpose_agrees_with_array_witness :
    IsMat 5 5 P5 ∧ x5.length = 5 ∧
      applyOp (transpose (LinOp.Matrix P5)) x5 = some (matVec (transposeMat P5) x5) :=
  ⟨by decide, by decide,
    C5_transpose_agrees_with_array.2.1 5 5 P5 x5 (by decide) (by decide)⟩

/-- C6: operator arithmetic is lazy: `+` on two operators of equal shape
returns the `Sum` composite holding the two constituents and `@` returns the
`Product` composite, each with shape and dtype derived from the constituents;
in the notebook's example both have shape (5, 5) and dtype float64. -/
theorem C6_arithmetic_builds_lazy_composites :
    (∀ A B : LinOp, shape A = shape B → addOp A B = some (.Sum A B)) ∧
    (∀ A B : LinOp, (shape A).2 = (shape B).1 → mulOp A B = some (.Product A B)) ∧
    (∀ A B : LinOp, shape (.Sum A B) = shape A ∧
      dtype (.Sum A B) = promoteDType (dtype A) (dtype B)) ∧
    (∀ A B : LinOp, shape (.Product A B) = ((shape A).1, (shape B).2) ∧
      dtype (.Product A B) = promoteDType (dtype A) (dtype B)) ∧
    addOp P_op5 P_op5 = some (.Sum P_op5 P_op5) ∧
    shape (.Sum P_op5 P_op5) = (5, 5) ∧ dtype (.Sum P_op5 P_op5) = .float64 ∧
    mulOp P_op5 P_op5 = some (.Product P_op5 P_op5) ∧
    shape (.Product P_op5 P_op5) = (5, 5) ∧ dtype (.Product P_op5 P_op5) = .float64 := by
  refine ⟨?_, ?_, fun A B => ⟨rfl, rfl⟩, fun A B => ⟨rfl, rfl⟩, ?_, by decide, by decide, ?_,
    by decide, by decide⟩
  · intro A B h
    unfold addOp
    rw [if_pos h]
  · intro A B h
    unfold mulOp
    rw [if_pos h]
  · unfold addOp
    rw [if_pos rfl]
  · unfold mulOp
    norm_num [shape, P_op5, P5, colsOf]

theorem C6_arithmetic_builds_lazy_composites_witness :
    shape P_op5 = shape P_op5 ∧ addOp P_op5 P_op5 = some (LinOp.Sum P_op5 P_op5) :=
  ⟨rfl, C6_arithmetic_builds_lazy_composites.1 P_op5 P_op5 rfl⟩

/-- C7: every operator has a shape (rows, columns) and a numeric element type,
and applying a well-formed operator of shape (m, n) to a vector of length n
produces a vector of length m; the notebook's projection operator has shape
(2, 3), dtype float64, and maps the 3-vector [3,2,1] to the 2-vector [3,2]. -/
theorem C7_shape_governs_application :
    (∀ (m n : Nat) (L : LinOp) (x : Vec), WF L → shape L = (m, n) → x.length = n →
      ∃ y : Vec, applyOp L x = some y ∧ y.length = m) ∧
    shape PrOp = (2, 3) ∧ dtype PrOp = .float64 ∧ applyOp PrOp [3, 2, 1] = some [3, 2] := by
  refine ⟨?_, rfl, rfl, by simp [applyOp, PrOp, broadcast_matvec, projMv]⟩
  intro m n L x hL hs hx
  refine ⟨matVec (todense L) x, (todense_spec hL).2 x (by rw [hs]; exact hx), ?_⟩
  have h1 := (todense_spec hL).1.1
  rw [length_matVec, h1, hs]

theorem C7_shape_governs_application_witness :
    WF PrOp ∧ shape PrOp = (2, 3) ∧ (3 : Nat) = List.length [(3 : ℚ), 2, 1] ∧
      ∃ y : Vec, applyOp PrOp [3, 2, 1] = some y ∧ y.length = 2 :=
  ⟨wf_PrOp, rfl, by decide,
    C7_shape_governs_application.1 2 3 PrOp [3, 2, 1] wf_PrOp rfl (by decide)⟩

/-- C8: conformability of shapes is exactly what composition and application
require: building a sum succeeds precisely when the shapes agree, building a
product succeeds precisely when the inner dimensions agree, and applying a
well-formed operator succeeds precisely when the vector's length equals the
operator's column count — no other precondition causes a failure. -/
theorem C8_conformability_is_only_failure :
    (∀ A B : LinOp, (addOp A B).isSome ↔ shape A = shape B) ∧
    (∀ A B : LinOp, (mulOp A B).isSome ↔ (shape A).2 = (shape B).1) ∧
    (∀ (L : LinOp) (x : Vec), WF L → ((applyOp L x).isSome ↔ x.length = (shape L).2)) := by
  refine ⟨?_, ?_, ?_⟩
  · intro A B
    unfold addOp
    by_cases h : shape A = shape B <;> simp [h]
  · intro A B
    unfold mulOp
    by_cases h : (shape A).2 = (shape B).1 <;> simp [h]
  · intro L x hL
    constructor
    · intro hsome
      by_contra hx
      rw [applyOp_none hL x hx] at hsome
      simp at hsome
    · intro hx
      rw [(todense_spec hL).2 x hx]
      simp

theorem C8_conformability_is_only_failure_witness :
    WF P_op5 ∧ ((applyOp P_op5 x5).isSome ↔ x5.length = (shape P_op5).2) :=
  ⟨wf_P_op5, C8_conformability_is_only_failure.2.2 P_op5 x5 wf_P_op5⟩

/-- C9: dense materialization is faithful: for every well-formed operator L
(matrix-backed or function-backed) and every conformable vector x,
`L.todense() @ x = L @ x`; in particular the matrix-free roll operator
materializes to the 5x5 cyclic permutation matrix and the projection operator
to [[1,0,0],[0,1,0]]. -/
theorem C9_todense_faithful :
    (∀ (L : LinOp) (x : Vec), WF L → x.length = (shape L).2 →
      applyOp L x = some (matVec (todense L) x)) ∧
    todense rollOp = P5 ∧ todense PrOp = PrMat := by
  refine ⟨?_, ?_, ?_⟩
  · intro L x hL hx
    exact (todense_spec hL).2 x hx
  · norm_num [todense, rollOp, broadcast_matvec, nproll, unitVec, P5, range_five]
  · norm_num [todense, PrOp, broadcast_matvec, projMv, unitVec, PrMat, range_two, range_three]

theorem C9_todense_faithful_witness :
    WF rollOp ∧ x5.length = (shape rollOp).2 ∧
      applyOp rollOp x5 = some (matVec (todense rollOp) x5) :=
  ⟨wf_rollOp, by decide, C9_todense_faithful.1 rollOp x5 wf_rollOp (by decide)⟩

/-- C10: `Identity(shape=n)` is a two-sided identity for operator arithmetic:
it maps every n-vector to itself, composing any well-formed operator with the
identity on either side leaves its action unchanged, and
`(A + c * Identity(shape=n)) @ x = A @ x + c * x`, as exercised by
`(A_op + 1.5 * Id) @ x` in the notebook. -/
theorem C10_identity_operator_neutral :
    (∀ (n : Nat) (x : Vec), x.length = n → applyOp (.Identity n) x = some x) ∧
    (∀ (n : Nat) (c : ℚ) (A : LinOp) (x u : Vec), shape A = (n, n) → x.length = n →
      applyOp A x = some u →
      applyOp (.Sum A (.Scaled c (.Identity n))) x
        = some (List.zipWith (fun a b => a + b) u (x.map (fun a => c * a)))) ∧
    (∀ (L : LinOp) (x : Vec), WF L →
      applyOp (.Product L (.Identity (shape L).2)) x = applyOp L x) ∧
    (∀ (L : LinOp) (x : Vec), WF L →
      applyOp (.Product (.Identity (shape L).1) L) x = applyOp L x) ∧
    applyOp (.Sum (.Matrix [[1, 2], [3, 4]]) (.Scaled (3 / 2) (.Identity 2))) [1, 1]
      = some [9 / 2, 17 / 2] := by
  refine ⟨?_, ?_, ?_, ?_, ?_⟩
  · intro n x hx
    simp [applyOp, hx]
  · intro n c A x u hs hx hu
    simp [applyOp, hu, hx]
  · intro L x hL
    by_cases hx : x.length = (shape L).2
    · simp [applyOp, hx]
    · rw [applyOp_none hL x hx]
      simp [applyOp, hx]
  · intro L x hL
    cases h : applyOp L x with
    | none => simp [applyOp, h]
    | some v =>
      have hv := (applyOp_some_length hL h).2
      simp [applyOp, h, hv]
  · norm_num [applyOp, matVec, dot, colsOf]

theorem C10_identity_operator_neutral_witness :
    shape (LinOp.Matrix [[0, 1], [1, 0]]) = (2, 2) ∧ List.length [(1 : ℚ), 0] = 2 ∧
      applyOp (LinOp.Matrix [[0, 1], [1, 0]]) [1, 0] = some [0, 1] ∧
      applyOp (.Sum (LinOp.Matrix [[0, 1], [1, 0]]) (.Scaled (3 / 2) (.Identity 2))) [1, 0]
        = some (List.zipWith (fun a b => a + b) [0, 1] ([1, 0].map (fun a => 3 / 2 * a))) :=
  ⟨by decide, by decide, by simp [applyOp, matVec, dot, colsOf],
    C10_identity_operator_neutral.2.1 2 (3 / 2) (LinOp.Matrix [[0, 1], [1, 0]]) [1, 0] [0, 1]
      (by decide) (by decide) (by simp [applyOp, matVec, dot, colsOf])⟩

end Linops
